import Mathlib

/-!
Verification of the gitme identity-resolution engine.

Shallow embedding of the Go sources (`internal/identity/identity.go`,
`internal/config/config.go`, `internal/cmd/*.go`, `main.go`).  Strings are
modelled as lists of characters (`Str`), Go's `strings.Contains` as list
infix, and filesystem reads as explicit data passed to the functions.
-/

namespace Gitme

/-- Strings are modelled as lists of characters. -/
abbrev Str := List Char

/-- Go `strings.Contains s sub`. -/
def strContains (s sub : Str) : Bool := decide (sub <:+: s)

/-- Go `strings.HasSuffix s suf`. -/
def strEndsWith (s suf : Str) : Bool := decide (suf <:+ s)

/-- Go `strings.HasPrefix s pre`. -/
def strStartsWith (s pre : Str) : Bool := decide (pre <+: s)

/-- Go `strings.ToLower` (ASCII view, as used for email/url matching). -/
def strToLower (s : Str) : Str := s.map Char.toLower

/-- Platform, from `identity.go`: the git hosting platform. -/
inductive Platform where
  | unknown
  | github
  | gitlab
  | bitbucket
deriving DecidableEq, Repr

/-- Identity, from `identity.go`: a git identity. -/
structure Identity where
  name : Str
  email : Str
  source : Str
  platform : Platform
deriving DecidableEq, Repr

/-- `DetectPlatform` from `identity.go`: detects the platform from an email. -/
def DetectPlatform (email : Str) : Platform :=
  let e := strToLower email
  if strContains e ("github".toList)
      || strEndsWith e ("@users.noreply.github.com".toList) then
    .github
  else if strContains e ("gitlab".toList) then
    .gitlab
  else if strContains e ("bitbucket".toList) then
    .bitbucket
  else
    .unknown

/-! ## Rule engine (`main.go`: `Rule`, `matchesPattern`, `FindRuleForPath`) -/

/-- Rule, from `main.go`: a path-pattern to email mapping. -/
structure Rule where
  pattern : Str
  email : Str
deriving DecidableEq, Repr

/-- `matchesPattern` from `main.go`: a leading `~` in the pattern is expanded
to the home directory, then the rule matches when the (nonempty) expanded
pattern is a substring of the path. -/
def matchesPattern (home path pattern : Str) : Bool :=
  let p := match pattern with
    | '~' :: rest => home ++ rest
    | _ => pattern
  decide (p ≠ []) && strContains path p

/-- The loop body of `FindRuleForPath` from `main.go`, threading the current
best match and its (unexpanded) pattern length. -/
def findRuleLoop (home path : Str) : List Rule → Option Rule × Nat → Option Rule × Nat
  | [], acc => acc
  | r :: rs, (best, bestLen) =>
      if matchesPattern home path r.pattern && decide (r.pattern.length > bestLen) then
        findRuleLoop home path rs (some r, r.pattern.length)
      else
        findRuleLoop home path rs (best, bestLen)

/-- `FindRuleForPath` from `main.go`: best (longest-pattern) matching rule. -/
def FindRuleForPath (home : Str) (rules : List Rule) (path : Str) : Option Rule :=
  (findRuleLoop home path rules (none, 0)).1

/-- Length associated with an optional best rule (0 when none). -/
def optRuleLen (o : Option Rule) : Nat :=
  (o.map fun r => r.pattern.length).getD 0

/-! ## Config-source reading (`identity.go`: `parseGitConfig` and friends)

A file read is modelled as `Option (List Str)`: `none` when `os.Open`
fails (unreadable file), `some lines` otherwise. -/

/-- Go `strings.TrimSpace`. -/
def trimSpace (s : Str) : Str :=
  ((s.dropWhile Char.isWhitespace).reverse.dropWhile Char.isWhitespace).reverse

/-- The remainder of a list after the first `=`, if any
(Go `strings.SplitN(line, "=", 2)` yields two parts exactly then). -/
def afterFirstEq : Str → Option Str
  | [] => none
  | '=' :: rest => some rest
  | _ :: rest => afterFirstEq rest

/-- `extractValue` from `identity.go`: the trimmed text after the first `=`,
empty when the line has no `=`. -/
def extractValue (line : Str) : Str :=
  match afterFirstEq line with
  | some v => trimSpace v
  | none => []

/-- The line loop of `parseGitConfig`: tracks whether the scan is inside the
`[user]` section and accumulates the `name` and `email` values. -/
def parseUserLoop : List Str → Bool → Str → Str → Str × Str
  | [], _, name, email => (name, email)
  | l :: rest, inUser, name, email =>
      let line := trimSpace l
      if strStartsWith line ("[user]".toList) then
        parseUserLoop rest true name email
      else if strStartsWith line ['['] && inUser then
        (name, email)
      else if inUser && strStartsWith line ("name".toList) then
        parseUserLoop rest inUser (extractValue line) email
      else if inUser && strStartsWith line ("email".toList) then
        parseUserLoop rest inUser name (extractValue line)
      else
        parseUserLoop rest inUser name email

/-- `parseGitConfig` from `identity.go`.  `file` is the file content
(`none` = unreadable), `source` the source label, `repoPath` the optional
repository directory and `remotePlatform` the result of
`detectPlatformFromRemotes repoPath` (used only when nonempty `repoPath` is
supplied and the email carries no platform signal).  An unreadable file
yields `Except.error` (Go: `return nil, err`); a readable file missing one
of name/email yields `Except.ok none` (Go: `return nil, nil`). -/
def parseGitConfig (file : Option (List Str)) (source : Str) (repoPath : Str)
    (remotePlatform : Platform) : Except Unit (Option Identity) :=
  match file with
  | none => .error ()
  | some lines =>
      let ne := parseUserLoop lines false [] []
      if ne.1 ≠ [] ∧ ne.2 ≠ [] then
        let platform := DetectPlatform ne.2
        let platform :=
          if platform = .unknown ∧ repoPath ≠ [] then remotePlatform else platform
        .ok (some ⟨ne.1, ne.2, source, platform⟩)
      else
        .ok none

/-- The line loop of `detectPlatformFromRemotes` from `identity.go`. -/
def detectRemoteLoop : List Str → Platform
  | [] => .unknown
  | l :: rest =>
      let line := strToLower l
      if strContains line ("url".toList) then
        if strContains line ("github.com".toList) then .github
        else if strContains line ("gitlab.com".toList)
            || strContains line ("gitlab".toList) then .gitlab
        else if strContains line ("bitbucket".toList) then .bitbucket
        else detectRemoteLoop rest
      else detectRemoteLoop rest

/-- `detectPlatformFromRemotes` from `identity.go`: platform from the first
url line of the repository's config that names a known host. -/
def detectPlatformFromRemotes (file : Option (List Str)) : Platform :=
  match file with
  | none => .unknown
  | some lines => detectRemoteLoop lines

/-- The line loop of `getRepoEmail` from `identity.go`. -/
def getRepoEmailLoop : List Str → Bool → Str
  | [], _ => []
  | l :: rest, inUser =>
      let line := trimSpace l
      if strStartsWith line ("[user]".toList) then
        getRepoEmailLoop rest true
      else if strStartsWith line ['['] && inUser then
        []
      else if inUser && strStartsWith line ("email".toList) then
        extractValue line
      else
        getRepoEmailLoop rest inUser

/-- `getRepoEmail` from `identity.go`: the `user.email` of a repository's
own config, empty when unset or unreadable. -/
def getRepoEmail (file : Option (List Str)) : Str :=
  match file with
  | none => []
  | some lines => getRepoEmailLoop lines false

/-! ## Identity store (`internal/config/config.go`) -/

/-- Config, from `config.go`: folder bindings plus all known identities. -/
structure Config where
  folderIdentities : List (Str × Identity)
  identities : List Identity
deriving DecidableEq, Repr

/-- The loop of `UpdateIdentities` from `config.go`: append each scanned
identity whose email has not been seen, threading the `seen` set. -/
def updateIdentitiesLoop : List Identity → List Identity → List Str → List Identity
  | [], acc, _ => acc
  | id :: rest, acc, seen =>
      if id.email ∈ seen then
        updateIdentitiesLoop rest acc seen
      else
        updateIdentitiesLoop rest (acc ++ [id]) (id.email :: seen)

/-- `UpdateIdentities` from `config.go`: additive merge of newly discovered
identities into the stored ones, keyed by exact email. -/
def UpdateIdentities (c : Config) (ids : List Identity) : Config :=
  { c with identities := updateIdentitiesLoop ids c.identities (c.identities.map Identity.email) }

/-- The identity-merge core of the full-rescan command (`cmdScan` in
`main.go`, `Scan` in the command package): replace the stored set with the
fresh scan, then append each stored `"manual"` entry whose email the scan
did not find. -/
def cmdScan (old scanned : List Identity) : List Identity :=
  let manualIdentities := old.filter fun id => decide (id.source = "manual".toList)
  manualIdentities.foldl
    (fun acc id =>
      if scanned.any (fun s => decide (s.email = id.email)) then acc
      else acc ++ [id])
    scanned

/-! ## Auto-switch decision (`internal/cmd/auto.go`) -/

/-- Go `strings.EqualFold` (ASCII view, as used on emails). -/
def strEqualFold (a b : Str) : Bool := decide (strToLower a = strToLower b)

/-- Outcome of the `Auto` command, per the specified state machine. -/
inductive AutoDecision where
  | skipped
  | noActionNeeded
  | autoApplied
  | mismatchReported
deriving DecidableEq, Repr

/-- The local git config of the working directory: the mutable state `Auto`
may rewrite through `ApplyIdentity` (`repo.go`). -/
structure GitConfigState where
  userName : Str
  userEmail : Str
deriving DecidableEq, Repr

/-- `deriveIdentityFromPath` from `auto.go`: first identity in store order
whose platform's hosting domain occurs in the path. -/
def deriveIdentityFromPath (path : Str) (identities : List Identity) : Option Identity :=
  identities.find? fun id =>
    match id.platform with
    | .github => strContains path ("github.com".toList)
    | .gitlab => strContains path ("gitlab.com".toList)
    | .bitbucket => strContains path ("bitbucket.org".toList)
    | .unknown => false

/-- The expected-identity resolution of `Auto` (`auto.go`): an explicit rule
match looked up in the store case-insensitively, else path derivation. -/
def resolveExpected (home cwd : Str) (identities : List Identity)
    (rules : List Rule) : Option Identity :=
  let fromRule :=
    match FindRuleForPath home rules cwd with
    | some rule => identities.find? fun id => strEqualFold id.email rule.email
    | none => none
  match fromRule with
  | some id => some id
  | none => deriveIdentityFromPath cwd identities

/-- `Auto` from `auto.go`, as a decision over explicit state: skip outside a
git repository, resolve an expected identity, compare emails case
insensitively, then apply (rewrite the local git config) or report
according to the `autoApply` setting. -/
def Auto (isGitRepo : Bool) (home cwd : Str) (identities : List Identity)
    (rules : List Rule) (autoApply : Bool) (st : GitConfigState) :
    AutoDecision × GitConfigState :=
  if !isGitRepo then (.skipped, st)
  else
    match resolveExpected home cwd identities rules with
    | none => (.noActionNeeded, st)
    | some expected =>
        if strEqualFold st.userEmail expected.email then (.noActionNeeded, st)
        else if autoApply then
          (.autoApplied, { userName := expected.name, userEmail := expected.email })
        else (.mismatchReported, st)

/-! ## Workspace walk and full scan (`identity.go`: `scanDirectory`, `Scan`)

A workspace directory is a tree: each node is one subdirectory entry,
carrying whether it holds a `.git` directory, the path of its
`.git/config`, that file's content (`none` when absent or unreadable), and
its own subdirectory entries. -/

inductive DirTree where
  | node (hasGit : Bool) (path : Str) (cfg : Option (List Str)) (children : List DirTree)
deriving Repr

def DirTree.hasGit : DirTree → Bool
  | .node b _ _ _ => b

def DirTree.path : DirTree → Str
  | .node _ p _ _ => p

def DirTree.cfg : DirTree → Option (List Str)
  | .node _ _ c _ => c

def DirTree.children : DirTree → List DirTree
  | .node _ _ _ c => c

/-- The identity `scanDirectory` parses for one entry: `parseGitConfig` on
the entry's `<subdir>/.git/config` (as both file and source label) with the
entry's `<subdir>/.git` as repository directory, whose remotes the platform
fallback inspects; an open error or half-filled `[user]` section is no
identity. -/
def repoIdentityOf (t : DirTree) : Option Identity :=
  match parseGitConfig t.cfg (t.path ++ "/.git/config".toList)
      (t.path ++ "/.git".toList) (detectPlatformFromRemotes t.cfg) with
  | .ok r => r
  | .error _ => none

/-- The per-entry body of the `scanDirectory` loop: add the entry's parsed
identity when its email is unseen, marking it seen. -/
def scanEntry (t : DirTree) (seen : List Str) : List Identity × List Str :=
  match repoIdentityOf t with
  | some id =>
      if id.email ∈ seen then (([] : List Identity), seen)
      else ([id], id.email :: seen)
  | none => ([], seen)

/-- `scanDirectory` from `identity.go`, on the entry list of a directory:
parse each entry's repository config, add its identity when the email is
unseen, and recurse one level deeper while `maxDepth > 1`.  Returns the
found identities and the updated seen set. -/
def scanDirectory : List DirTree → Nat → List Str → List Identity × List Str
  | _, 0, seen => ([], seen)
  | [], _ + 1, seen => ([], seen)
  | t :: ts, d + 1, seen =>
      let s₁ := scanEntry t seen
      let s₂ :=
        if 1 < d + 1 then scanDirectory t.children d s₁.2 else ([], s₁.2)
      let s₃ := scanDirectory ts (d + 1) s₂.2
      (s₁.1 ++ s₂.1 ++ s₃.1, s₃.2)

/-- Platform backfill used by `Scan` for config-sourced identities: when the
identity's own platform is unknown, borrow the one recorded for its email
in the email-to-platform inference map. -/
def backfill (emailPlatforms : Str → Option Platform) (id : Identity) : Identity :=
  if id.platform = .unknown then
    match emailPlatforms id.email with
    | some p => { id with platform := p }
    | none => id
  else id

/-- The add-if-unseen step used by every config phase of `Scan`. -/
def addIfNew (s : List Identity × List Str) (id : Identity) : List Identity × List Str :=
  if id.email ∈ s.2 then s else (s.1 ++ [id], id.email :: s.2)

/-- One config-file phase of `Scan`: parse, backfill the platform from the
inference map, and add if the email is unseen. -/
def scanConfigStep (emailPlatforms : Str → Option Platform)
    (file : Option (List Str)) (source : Str)
    (s : List Identity × List Str) : List Identity × List Str :=
  match parseGitConfig file source [] .unknown with
  | .ok (some id) => addIfNew s (backfill emailPlatforms id)
  | _ => s

/-- `Scan` from `identity.go`.  `globalCfg`/`xdgCfg` are the contents of
`~/.gitconfig` and `~/.config/git/config`, `includeIds` the identities
`scanIncludes` extracted from the `include.path` targets, and
`workspaceDirs` the entry trees of the existing workspace roots.
`emailPlatforms` is the email-to-platform inference map the source builds
first with `scanRepoPlatforms`; it only feeds the platform backfill.  The
phases run in source order: global config, XDG config, includes, then the
depth-2 repository walk, all sharing one seen-email set. -/
def Scan (emailPlatforms : Str → Option Platform)
    (globalCfg xdgCfg : Option (List Str)) (globalSrc xdgSrc : Str)
    (includeIds : List Identity) (workspaceDirs : List DirTree) :
    List Identity :=
  let s0 : List Identity × List Str := ([], [])
  let s1 := scanConfigStep emailPlatforms globalCfg globalSrc s0
  let s2 := scanConfigStep emailPlatforms xdgCfg xdgSrc s1
  let s3 := includeIds.foldl (fun s id => addIfNew s (backfill emailPlatforms id)) s2
  let s4 := workspaceDirs.foldl
    (fun s t =>
      let r := scanDirectory t.children 2 s.2
      (s.1 ++ r.1, r.2))
    s3
  s4.1

/-! ## Platform inference index (`scanRepoPlatforms`, SSH-aware revision)

From the revision of `identity.go` that carries
`detectPlatformFromRemotesWithHost` and the domain/corporate preference
logic of `scanRepoPlatforms`. -/

/-- `getEmailDomain` from the source: the first label of the email's domain
(`"sclable"` from `"user@sclable.com"`), empty unless the email has exactly
one `@`. -/
def getEmailDomain (email : Str) : Str :=
  match email.splitOn '@' with
  | [_, domain] =>
      match domain.splitOn '.' with
      | [] => domain
      | [_] => domain
      | d :: _ => d
  | _ => []

/-- Everything before the first occurrence of `c`, or `none` when `c` does
not occur (Go `strings.Index` plus slicing). -/
def takeBefore (s : Str) (c : Char) : Option Str :=
  if c ∈ s then some (s.takeWhile fun x => x ≠ c) else none

/-- `extractHostFromURL` from the source: strip a `git@`, `https://` or
`http://` head and cut at the first `:` or `/`. -/
def extractHostFromURL (url : Str) : Str :=
  let u1 := if strStartsWith url ("git@".toList) then url.drop 4 else url
  match (if strStartsWith url ("git@".toList) then takeBefore u1 ':' else none) with
  | some h => h
  | none =>
      let u2 := if strStartsWith u1 ("https://".toList) then u1.drop 8 else u1
      match (if strStartsWith u1 ("https://".toList) then takeBefore u2 '/' else none) with
      | some h => h
      | none =>
          let u3 := if strStartsWith u2 ("http://".toList) then u2.drop 7 else u2
          match (if strStartsWith u2 ("http://".toList) then takeBefore u3 '/' else none) with
          | some h => h
          | none => u3

/-- The line loop of `detectPlatformFromRemotesWithHost`: the first
qualifying `url` line decides, checking the known domains, then the SSH
host aliases, then the self-hosted `git.` heuristic. -/
def detectRemoteWithHostLoop (ssh : List (Str × Platform)) :
    List Str → Platform × Str
  | [] => (.unknown, [])
  | l :: rest =>
      let line := strToLower l
      if strContains line ("url".toList) then
        match afterFirstEq line with
        | none => detectRemoteWithHostLoop ssh rest
        | some v =>
            let url := trimSpace v
            let host := extractHostFromURL url
            if strContains url ("github.com".toList) then (.github, host)
            else if strContains url ("gitlab.com".toList) then (.gitlab, host)
            else if strContains url ("bitbucket".toList) then (.bitbucket, host)
            else
              match ssh.find? (fun sp =>
                  let hostLower := strToLower sp.1
                  strContains url (hostLower ++ [':'])
                    || strContains url (hostLower ++ ['/'])
                    || strContains url ('@' :: hostLower)) with
              | some sp => (sp.2, host)
              | none =>
                  if strContains url ("git.".toList)
                      && !strContains url ("github".toList) then
                    (.gitlab, host)
                  else detectRemoteWithHostLoop ssh rest
      else detectRemoteWithHostLoop ssh rest

/-- `detectPlatformFromRemotesWithHost` from the source: platform and bare
remote host of a repository config. -/
def detectPlatformFromRemotesWithHost (ssh : List (Str × Platform))
    (file : Option (List Str)) : Platform × Str :=
  match file with
  | none => (.unknown, [])
  | some lines => detectRemoteWithHostLoop ssh lines

/-- The per-repository insertion of `scanRepoPlatforms` into the
email-to-platform map: first write wins, a remote host containing the
email's domain token overrides, and gitlab overrides github for an email
containing neither `gmail` nor `github`. -/
def updateEmailPlatforms (m : Str → Option Platform) (email : Str)
    (platform : Platform) (remoteHost : Str) : Str → Option Platform :=
  let set := fun e => if e = email then some platform else m e
  match m email with
  | none => set
  | some existing =>
      if remoteHost ≠ [] ∧ strContains remoteHost (getEmailDomain email) then set
      else if existing = .github ∧ platform = .gitlab then
        if ¬strContains email ("gmail".toList) ∧ ¬strContains email ("github".toList) then
          set
        else m
      else m

/-- `scanRepoPlatforms` from the source, on a directory's entry list: for
each entry holding a `.git` directory whose remotes classify, record the
repository's effective email (local, else global) in the map via
`updateEmailPlatforms`, and recurse while `maxDepth > 1`. -/
def scanRepoPlatforms (ssh : List (Str × Platform)) :
    List DirTree → Nat → (Str → Option Platform) → Str → (Str → Option Platform)
  | _, 0, m, _ => m
  | [], _ + 1, m, _ => m
  | t :: ts, d + 1, m, globalEmail =>
      let m₁ :=
        if t.hasGit then
          let pr := detectPlatformFromRemotesWithHost ssh t.cfg
          if pr.1 ≠ .unknown then
            let localEmail := getRepoEmail t.cfg
            let email := if localEmail = [] then globalEmail else localEmail
            if email ≠ [] then updateEmailPlatforms m email pr.1 pr.2 else m
          else m
        else m
      let m₂ :=
        if 1 < d + 1 then scanRepoPlatforms ssh t.children d m₁ globalEmail else m₁
      scanRepoPlatforms ssh ts (d + 1) m₂ globalEmail

/-- The in-order `(email, platform, remoteHost)` observations
`scanRepoPlatforms` inserts for a directory walk. -/
def repoObservations (ssh : List (Str × Platform)) :
    List DirTree → Nat → Str → List (Str × Platform × Str)
  | _, 0, _ => []
  | [], _ + 1, _ => []
  | t :: ts, d + 1, globalEmail =>
      let here :=
        if t.hasGit then
          let pr := detectPlatformFromRemotesWithHost ssh t.cfg
          if pr.1 ≠ .unknown then
            let localEmail := getRepoEmail t.cfg
            let email := if localEmail = [] then globalEmail else localEmail
            if email ≠ [] then [(email, pr.1, pr.2)] else []
          else []
        else []
      let below :=
        if 1 < d + 1 then repoObservations ssh t.children d globalEmail else []
      here ++ below ++ repoObservations ssh ts (d + 1) globalEmail

/-- Invariant tying a scan phase's output to the seen set it started from:
the produced identities carry pairwise distinct emails, none of them was
seen before, and the resulting seen set is exactly the old one plus the
produced emails. -/
def ScanInv (seen : List Str) (r : List Identity × List Str) : Prop :=
  (r.1.map Identity.email).Nodup
  ∧ (∀ e ∈ r.1.map Identity.email, e ∉ seen)
  ∧ (∀ e, e ∈ r.2 ↔ e ∈ seen ∨ e ∈ r.1.map Identity.email)

/-! ## Proofs -/

lemma matchesPattern_pattern_ne_nil {home path pattern : Str}
    (h : matchesPattern home path pattern = true) : pattern ≠ [] := by
  intro hnil
  subst hnil
  simp [matchesPattern, strContains] at h

/-- Invariant of the `FindRuleForPath` loop: the tracked length is the best
rule's pattern length, never decreases, dominates every matching rule seen,
and the result is either the incoming best or a matching rule of the list. -/
lemma findRuleLoop_inv (home path : Str) (rs : List Rule) (best : Option Rule)
    (bestLen : Nat) (hlen : bestLen = optRuleLen best) :
    (findRuleLoop home path rs (best, bestLen)).2
        = optRuleLen (findRuleLoop home path rs (best, bestLen)).1
    ∧ bestLen ≤ (findRuleLoop home path rs (best, bestLen)).2
    ∧ (∀ r ∈ rs, matchesPattern home path r.pattern = true →
        r.pattern.length ≤ (findRuleLoop home path rs (best, bestLen)).2)
    ∧ ((findRuleLoop home path rs (best, bestLen)).1 = best
        ∨ ∃ r ∈ rs, (findRuleLoop home path rs (best, bestLen)).1 = some r
            ∧ matchesPattern home path r.pattern = true) := by
  induction rs generalizing best bestLen with
  | nil =>
      refine ⟨hlen, le_refl _, ?_, Or.inl rfl⟩
      intro r hr
      exact absurd hr (List.not_mem_nil r)
  | cons r rs ih =>
      by_cases hc : (matchesPattern home path r.pattern
          && decide (r.pattern.length > bestLen)) = true
      · have hmatch : matchesPattern home path r.pattern = true :=
          (Bool.and_eq_true _ _ ▸ hc).1
        have hgt : r.pattern.length > bestLen := by
          have := (Bool.and_eq_true _ _ ▸ hc).2
          exact of_decide_eq_true this
        have hstep : findRuleLoop home path (r :: rs) (best, bestLen)
            = findRuleLoop home path rs (some r, r.pattern.length) := by
          simp [findRuleLoop, hc]
        obtain ⟨h1, h2, h3, h4⟩ :=
          ih (some r) r.pattern.length (by simp [optRuleLen])
        refine ⟨hstep ▸ h1, ?_, ?_, ?_⟩
        · exact hstep ▸ le_trans (le_of_lt hgt) h2
        · intro r' hr' hm'
          rcases List.mem_cons.mp hr' with h | h
          · subst h; exact hstep ▸ h2
          · exact hstep ▸ h3 r' h hm'
        · rcases h4 with h | ⟨r', hr', hres, hm'⟩
          · exact Or.inr ⟨r, List.mem_cons_self r rs, hstep ▸ h, hmatch⟩
          · exact Or.inr ⟨r', List.mem_cons_of_mem r hr', hstep ▸ hres, hm'⟩
      · have hstep : findRuleLoop home path (r :: rs) (best, bestLen)
            = findRuleLoop home path rs (best, bestLen) := by
          simp only [findRuleLoop]
          rw [if_neg (by simpa using hc)]
        obtain ⟨h1, h2, h3, h4⟩ := ih best bestLen hlen
        refine ⟨hstep ▸ h1, hstep ▸ h2, ?_, ?_⟩
        · intro r' hr' hm'
          rcases List.mem_cons.mp hr' with h | h
          · subst h
            have : ¬ r'.pattern.length > bestLen := by
              intro hgt
              exact hc (by simp [hm', hgt])
            exact hstep ▸ le_trans (Nat.le_of_not_lt this) h2
          · exact hstep ▸ h3 r' h hm'
        · rcases h4 with h | ⟨r', hr', hres, hm'⟩
          · exact Or.inl (hstep ▸ h)
          · exact Or.inr ⟨r', List.mem_cons_of_mem r hr', hstep ▸ hres, hm'⟩

lemma FindRuleForPath_none (home path : Str) (rules : List Rule)
    (h : FindRuleForPath home rules path = none) :
    ∀ r ∈ rules, matchesPattern home path r.pattern = false := by
  intro r hr
  obtain ⟨h1, _, h3, _⟩ := findRuleLoop_inv home path rules none 0 rfl
  by_contra hm
  have hm' : matchesPattern home path r.pattern = true := by
    revert hm; cases matchesPattern home path r.pattern <;> simp
  have hle := h3 r hr hm'
  have hz : (findRuleLoop home path rules (none, 0)).2 = 0 := by
    rw [h1]; unfold FindRuleForPath at h; rw [h]; rfl
  have : r.pattern ≠ [] := matchesPattern_pattern_ne_nil hm'
  have : 0 < r.pattern.length := List.length_pos.mpr this
  omega

lemma FindRuleForPath_some (home path : Str) (rules : List Rule) (r : Rule)
    (h : FindRuleForPath home rules path = some r) :
    r ∈ rules ∧ matchesPattern home path r.pattern = true
    ∧ ∀ r' ∈ rules, matchesPattern home path r'.pattern = true →
        r'.pattern.length ≤ r.pattern.length := by
  obtain ⟨h1, _, h3, h4⟩ := findRuleLoop_inv home path rules none 0 rfl
  unfold FindRuleForPath at h
  rcases h4 with hb | ⟨r', hr', hres, hm'⟩
  · rw [h] at hb; exact absurd hb (by simp)
  · rw [h] at hres
    obtain rfl : r' = r := by injection hres with h'; exact h'.symm
    refine ⟨hr', hm', ?_⟩
    intro r'' hr'' hm''
    have := h3 r'' hr'' hm''
    rw [h1, h] at this
    simpa [optRuleLen] using this

/-- C2: for every rule list and every path, `FindRuleForPath` returns, among
all rules whose pattern (with a leading `~` expanded to home) is a substring
of the path, a rule with the greatest pattern length, and none when no rule
matches; and on the rules `~/work` and `~/work/acme`, the path
`~/work/acme/repo` under home resolves to the rule with email `b@x.com`. -/
theorem findRuleForPath_longest_match (home path : Str) (rules : List Rule) :
    (FindRuleForPath home rules path = none →
      ∀ r ∈ rules, matchesPattern home path r.pattern = false)
    ∧ (∀ r, FindRuleForPath home rules path = some r →
        r ∈ rules ∧ matchesPattern home path r.pattern = true
        ∧ ∀ r' ∈ rules, matchesPattern home path r'.pattern = true →
            r'.pattern.length ≤ r.pattern.length)
    ∧ (FindRuleForPath ("/home/u".toList)
        [⟨"~/work".toList, "a@x.com".toList⟩, ⟨"~/work/acme".toList, "b@x.com".toList⟩]
        ("/home/u/work/acme/repo".toList)).map Rule.email = some ("b@x.com".toList) :=
  ⟨FindRuleForPath_none home path rules,
   fun r h => FindRuleForPath_some home path rules r h,
   by rfl⟩

/-- Witness for C2: the longest-match conclusion at the concrete two-rule
example of the claim. -/
theorem findRuleForPath_longest_match_witness :
    (⟨"~/work/acme".toList, "b@x.com".toList⟩ : Rule) ∈
      [(⟨"~/work".toList, "a@x.com".toList⟩ : Rule),
        ⟨"~/work/acme".toList, "b@x.com".toList⟩]
    ∧ matchesPattern ("/home/u".toList) ("/home/u/work/acme/repo".toList)
        ("~/work/acme".toList) = true :=
  let h := (findRuleForPath_longest_match ("/home/u".toList)
      ("/home/u/work/acme/repo".toList)
      [⟨"~/work".toList, "a@x.com".toList⟩,
        ⟨"~/work/acme".toList, "b@x.com".toList⟩]).2.1
      ⟨"~/work/acme".toList, "b@x.com".toList⟩ (by rfl)
  ⟨h.1, h.2.1⟩

/-- C9: `FindRuleForPath` never returns a rule whose pattern is the empty
string, because matching requires a nonempty pattern; an empty pattern
matches no path. -/
theorem findRuleForPath_no_empty_pattern (home path : Str) (rules : List Rule) :
    (∀ r, FindRuleForPath home rules path = some r → r.pattern ≠ [])
    ∧ matchesPattern home path [] = false := by
  constructor
  · intro r h
    exact matchesPattern_pattern_ne_nil (FindRuleForPath_some home path rules r h).2.1
  · rfl

/-- Witness for C9: the returned concrete rule has a nonempty pattern. -/
theorem findRuleForPath_no_empty_pattern_witness :
    (⟨"/w".toList, "e@x".toList⟩ : Rule).pattern ≠ [] :=
  (findRuleForPath_no_empty_pattern ("/h".toList)
      ("/a/w/b".toList) [⟨"/w".toList, "e@x".toList⟩]).1
    ⟨"/w".toList, "e@x".toList⟩ (by rfl)

lemma strEndsWith_noreply_of_contains_github {e : Str}
    (h : strContains e ("github".toList) = false) :
    strEndsWith e ("@users.noreply.github.com".toList) = false := by
  by_contra hne
  have hs : strEndsWith e ("@users.noreply.github.com".toList) = true := by
    revert hne; cases strEndsWith e ("@users.noreply.github.com".toList) <;> simp
  have hsuf : ("@users.noreply.github.com".toList : Str) <:+ e :=
    of_decide_eq_true hs
  have hinf : ("github".toList : Str) <:+: ("@users.noreply.github.com".toList : Str) := by
    decide
  have hge : ("github".toList : Str) <:+: e := hinf.trans hsuf.isInfix
  have : strContains e ("github".toList) = true := decide_eq_true hge
  rw [this] at h
  exact Bool.noConfusion h

/-- C8 counterexample: the lowered email `a@gitlab.github.com` contains the
substring `gitlab`, yet `DetectPlatform` classifies it as github, because
the github check runs first. -/
theorem detectPlatform_gitlab_counterexample :
    strContains (strToLower ("a@gitlab.github.com".toList)) ("gitlab".toList) = true
    ∧ DetectPlatform ("a@gitlab.github.com".toList) = .github := by
  constructor
  · decide
  · rfl

/-- C8 amended: for every email whose lowered form contains `gitlab` but not
`github`, `DetectPlatform` returns gitlab; and since that platform is not
unknown, the `Scan` backfill from the repository-derived inference map
leaves it untouched for every possible map. -/
theorem detectPlatform_gitlab_amended (email : Str)
    (h1 : strContains (strToLower email) ("gitlab".toList) = true)
    (h2 : strContains (strToLower email) ("github".toList) = false) :
    DetectPlatform email = .gitlab
    ∧ ∀ (ep : Str → Option Platform) (n s : Str),
        backfill ep ⟨n, email, s, DetectPlatform email⟩ = ⟨n, email, s, .gitlab⟩ := by
  have h3 := strEndsWith_noreply_of_contains_github h2
  have hd : DetectPlatform email = .gitlab := by
    have h1' : strContains (strToLower email) ['g','i','t','l','a','b'] = true := h1
    have h2' : strContains (strToLower email) ['g','i','t','h','u','b'] = false := h2
    have h3' : strEndsWith (strToLower email)
        ['@','u','s','e','r','s','.','n','o','r','e','p','l','y','.',
          'g','i','t','h','u','b','.','c','o','m'] = false := h3
    unfold DetectPlatform
    simp [h1', h2', h3']
  refine ⟨hd, ?_⟩
  intro ep n s
  rw [hd]
  simp [backfill]

/-- Witness for C8: a corporate gitlab address classifies as gitlab and the
inference map cannot override it. -/
theorem detectPlatform_gitlab_amended_witness :
    DetectPlatform ("dev@gitlab.acme-corp.io".toList) = .gitlab
    ∧ backfill (fun _ => some Platform.github)
        ⟨"D".toList, "dev@gitlab.acme-corp.io".toList, "s".toList,
          DetectPlatform ("dev@gitlab.acme-corp.io".toList)⟩
      = ⟨"D".toList, "dev@gitlab.acme-corp.io".toList, "s".toList, .gitlab⟩ :=
  let h := detectPlatform_gitlab_amended ("dev@gitlab.acme-corp.io".toList)
    (by decide) (by decide)
  ⟨h.1, h.2 (fun _ => some Platform.github) ("D".toList) ("s".toList)⟩

/-- C7 counterexample: on an unreadable file, `parseGitConfig` returns the
open error (Go `return nil, err`), not the no-identity/no-error pair the
claim states. -/
theorem parseGitConfig_unreadable_counterexample :
    parseGitConfig none ("/home/u/.gitconfig".toList) [] .unknown = .error () := rfl

/-- C7 amended: an unreadable file yields no identity together with the open
error (which every caller swallows); a readable file whose `[user]` section
yields only one of name and email gives no identity and no error; and a
readable file never produces an error. -/
theorem parseGitConfig_absence_amended :
    (∀ (source repoPath : Str) (rp : Platform),
        parseGitConfig none source repoPath rp = .error ())
    ∧ (∀ (lines : List Str) (source repoPath : Str) (rp : Platform),
        (parseUserLoop lines false [] []).1 = []
          ∨ (parseUserLoop lines false [] []).2 = [] →
        parseGitConfig (some lines) source repoPath rp = .ok none)
    ∧ (∀ (lines : List Str) (source repoPath : Str) (rp : Platform) (e : Unit),
        parseGitConfig (some lines) source repoPath rp ≠ .error e) := by
  refine ⟨fun _ _ _ => rfl, ?_, ?_⟩
  · intro lines source repoPath rp h
    rcases h with h | h <;> simp [parseGitConfig, h]
  · intro lines source repoPath rp e
    simp only [parseGitConfig]
    split <;> simp

/-- Witness for C7: a readable config carrying a name but no email yields no
identity and no error. -/
theorem parseGitConfig_absence_amended_witness :
    parseGitConfig (some ["[user]".toList, "name=A".toList]) ("src".toList) [] .unknown
      = .ok none :=
  parseGitConfig_absence_amended.2.1 ["[user]".toList, "name=A".toList]
    ("src".toList) [] .unknown (Or.inr (by rfl))

lemma updateIdentitiesLoop_eq_append :
    ∀ (ids acc : List Identity) (seen : List Str),
      ∃ tail, updateIdentitiesLoop ids acc seen = acc ++ tail
        ∧ ∀ x ∈ tail, x ∈ ids ∧ x.email ∉ seen := by
  intro ids
  induction ids with
  | nil =>
      intro acc seen
      exact ⟨[], by simp [updateIdentitiesLoop], by simp⟩
  | cons id rest ih =>
      intro acc seen
      by_cases h : id.email ∈ seen
      · obtain ⟨tail, heq, hmem⟩ := ih acc seen
        refine ⟨tail, ?_, ?_⟩
        · simpa [updateIdentitiesLoop, h] using heq
        · intro x hx
          exact ⟨List.mem_cons_of_mem _ (hmem x hx).1, (hmem x hx).2⟩
      · obtain ⟨tail, heq, hmem⟩ := ih (acc ++ [id]) (id.email :: seen)
        refine ⟨id :: tail, ?_, ?_⟩
        · simp only [updateIdentitiesLoop, if_neg h, heq, List.append_assoc,
            List.singleton_append]
        · intro x hx
          rcases List.mem_cons.mp hx with rfl | hx'
          · exact ⟨List.mem_cons_self _ _, h⟩
          · exact ⟨List.mem_cons_of_mem _ (hmem x hx').1,
              fun hc => (hmem x hx').2 (List.mem_cons_of_mem _ hc)⟩

lemma updateIdentitiesLoop_covers :
    ∀ (ids acc : List Identity) (seen : List Str), ∀ s ∈ ids,
      s.email ∈ seen
        ∨ s.email ∈ (updateIdentitiesLoop ids acc seen).map Identity.email := by
  intro ids
  induction ids with
  | nil =>
      intro acc seen s hs
      exact absurd hs (List.not_mem_nil s)
  | cons id rest ih =>
      intro acc seen s hs
      by_cases h : id.email ∈ seen
      · have hrw : updateIdentitiesLoop (id :: rest) acc seen
            = updateIdentitiesLoop rest acc seen := by
          simp [updateIdentitiesLoop, h]
        rcases List.mem_cons.mp hs with rfl | hs'
        · exact Or.inl h
        · rw [hrw]
          exact ih acc seen s hs'
      · have hrw : updateIdentitiesLoop (id :: rest) acc seen
            = updateIdentitiesLoop rest (acc ++ [id]) (id.email :: seen) := by
          simp [updateIdentitiesLoop, h]
        obtain ⟨tail, heq, _⟩ :=
          updateIdentitiesLoop_eq_append rest (acc ++ [id]) (id.email :: seen)
        have hid_mem : id ∈ updateIdentitiesLoop (id :: rest) acc seen := by
          rw [hrw, heq]
          exact List.mem_append.mpr (Or.inl (List.mem_append.mpr (Or.inr (List.mem_singleton_self id))))
        rcases List.mem_cons.mp hs with rfl | hs'
        · exact Or.inr (List.mem_map.mpr ⟨s, hid_mem, rfl⟩)
        · rcases ih (acc ++ [id]) (id.email :: seen) s hs' with hseen | hmap
          · rcases List.mem_cons.mp hseen with heq' | hseen'
            · exact Or.inr (heq' ▸ List.mem_map.mpr ⟨id, hid_mem, rfl⟩)
            · exact Or.inl hseen'
          · rw [hrw]
            exact Or.inr hmap

/-- C4: `UpdateIdentities` keeps every stored identity unchanged in place,
never removes or rewrites one, and appends from the scan exactly identities
whose email was not already present: every element of the result is either
a stored identity or a scanned one with a fresh email, and every scanned
identity with a fresh email gets its email into the result. -/
theorem updateIdentities_additive (c : Config) (ids : List Identity) :
    c.identities <+: (UpdateIdentities c ids).identities
    ∧ (∀ x ∈ (UpdateIdentities c ids).identities,
        x ∈ c.identities ∨ (x ∈ ids ∧ x.email ∉ c.identities.map Identity.email))
    ∧ (∀ s ∈ ids, s.email ∉ c.identities.map Identity.email →
        s.email ∈ ((UpdateIdentities c ids).identities).map Identity.email) := by
  have hru : (UpdateIdentities c ids).identities
      = updateIdentitiesLoop ids c.identities (c.identities.map Identity.email) := rfl
  obtain ⟨tail, heq, hmem⟩ :=
    updateIdentitiesLoop_eq_append ids c.identities (c.identities.map Identity.email)
  refine ⟨⟨tail, by rw [hru, heq]⟩, ?_, ?_⟩
  · intro x hx
    rw [hru, heq] at hx
    rcases List.mem_append.mp hx with h | h
    · exact Or.inl h
    · exact Or.inr (hmem x h)
  · intro s hs hnot
    rcases updateIdentitiesLoop_covers ids c.identities
        (c.identities.map Identity.email) s hs with h | h
    · exact absurd h hnot
    · rw [hru]
      exact h

/-- Witness for C4: merging a fresh email into a one-identity store puts
that email into the result. -/
theorem updateIdentities_additive_witness :
    ("l@x".toList) ∈ ((UpdateIdentities
        ⟨[], [⟨"J".toList, "j@x".toList, "s".toList, .unknown⟩]⟩
        [⟨"L".toList, "l@x".toList, "t".toList, .github⟩]).identities).map
        Identity.email :=
  (updateIdentities_additive
      ⟨[], [⟨"J".toList, "j@x".toList, "s".toList, .unknown⟩]⟩
      [⟨"L".toList, "l@x".toList, "t".toList, .github⟩]).2.2
    ⟨"L".toList, "l@x".toList, "t".toList, .github⟩ (by simp) (by decide)

/-- C10: `UpdateIdentities` leaves the folder-to-identity binding map
unchanged and preserves the stored identity list as an unchanged prefix,
with only scanned identities appended after it. -/
theorem updateIdentities_frame (c : Config) (ids : List Identity) :
    (UpdateIdentities c ids).folderIdentities = c.folderIdentities
    ∧ c.identities <+: (UpdateIdentities c ids).identities
    ∧ ∀ x ∈ (UpdateIdentities c ids).identities.drop c.identities.length,
        x ∈ ids := by
  have hru : (UpdateIdentities c ids).identities
      = updateIdentitiesLoop ids c.identities (c.identities.map Identity.email) := rfl
  obtain ⟨tail, heq, hmem⟩ :=
    updateIdentitiesLoop_eq_append ids c.identities (c.identities.map Identity.email)
  refine ⟨rfl, ⟨tail, by rw [hru, heq]⟩, ?_⟩
  intro x hx
  rw [hru, heq, List.drop_left] at hx
  exact (hmem x hx).1

/-- Witness for C10: the appended region of a concrete merge holds only
scanned identities. -/
theorem updateIdentities_frame_witness :
    (⟨"K".toList, "k@x".toList, "t".toList, .github⟩ : Identity) ∈
      [(⟨"K".toList, "k@x".toList, "t".toList, .github⟩ : Identity)] :=
  (updateIdentities_frame
      ⟨[("/f".toList, ⟨"J".toList, "j@x".toList, "s".toList, .unknown⟩)],
        [⟨"J".toList, "j@x".toList, "s".toList, .unknown⟩]⟩
      [⟨"K".toList, "k@x".toList, "t".toList, .github⟩]).2.2
    ⟨"K".toList, "k@x".toList, "t".toList, .github⟩ (by decide)

lemma foldl_append_unless (p : Identity → Bool) :
    ∀ (l acc : List Identity),
      l.foldl (fun acc id => if p id then acc else acc ++ [id]) acc
        = acc ++ l.filter (fun id => !p id) := by
  intro l
  induction l with
  | nil => intro acc; simp
  | cons id rest ih =>
      intro acc
      by_cases h : p id = true
      · simp [List.foldl_cons, h, ih]
      · have h' : p id = false := by revert h; cases p id <;> simp
        simp [List.foldl_cons, h', ih]

/-- C5: the full-rescan merge replaces the stored identities with the fresh
scan followed by exactly the stored `"manual"` entries whose email the scan
did not find; every stored non-manual identity the scan did not re-find is
gone from the result. -/
theorem cmdScan_replace_wholesale (old scanned : List Identity) :
    cmdScan old scanned
      = scanned ++ old.filter (fun id =>
          decide (id.source = "manual".toList)
            && !(scanned.any fun s => decide (s.email = id.email)))
    ∧ ∀ id ∈ old, id.source ≠ "manual".toList →
        (∀ s ∈ scanned, s.email ≠ id.email) →
        id ∉ cmdScan old scanned := by
  have heq : cmdScan old scanned
      = scanned ++ (old.filter fun id => decide (id.source = "manual".toList)).filter
          (fun id => !(scanned.any fun s => decide (s.email = id.email))) := by
    unfold cmdScan
    exact foldl_append_unless _ _ _
  constructor
  · rw [heq, List.filter_filter]
    simp only [Bool.and_comm]
  · intro id hid hsrc hre hmem
    rw [heq] at hmem
    rcases List.mem_append.mp hmem with h | h
    · exact hre id h rfl
    · have h1 := List.of_mem_filter (List.mem_of_mem_filter h)
      exact hsrc (of_decide_eq_true h1)

/-- Witness for C5: a stored non-manual identity not re-found by the scan
is absent from the merge result. -/
theorem cmdScan_replace_wholesale_witness :
    (⟨"O".toList, "o@x".toList, "s".toList, .unknown⟩ : Identity) ∉
      cmdScan [⟨"O".toList, "o@x".toList, "s".toList, .unknown⟩]
        [⟨"N".toList, "n@x".toList, "t".toList, .github⟩] :=
  (cmdScan_replace_wholesale
      [⟨"O".toList, "o@x".toList, "s".toList, .unknown⟩]
      [⟨"N".toList, "n@x".toList, "t".toList, .github⟩]).2
    ⟨"O".toList, "o@x".toList, "s".toList, .unknown⟩
    (by simp) (by decide) (by decide)

/-- C6: once `Auto` resolves an expected identity, a case-insensitive email
match yields `noActionNeeded` with the local git config untouched; on a
mismatch with `autoApply` on, the expected name and email are written and
the decision is `autoApplied`; with `autoApply` off the decision is
`mismatchReported` and the config is untouched. -/
theorem auto_decision (home cwd : Str) (identities : List Identity)
    (rules : List Rule) (autoApply : Bool) (st : GitConfigState)
    (expected : Identity)
    (h : resolveExpected home cwd identities rules = some expected) :
    (strEqualFold st.userEmail expected.email = true →
      Auto true home cwd identities rules autoApply st = (.noActionNeeded, st))
    ∧ (strEqualFold st.userEmail expected.email = false → autoApply = true →
      Auto true home cwd identities rules autoApply st
        = (.autoApplied, ⟨expected.name, expected.email⟩))
    ∧ (strEqualFold st.userEmail expected.email = false → autoApply = false →
      Auto true home cwd identities rules autoApply st
        = (.mismatchReported, st)) := by
  refine ⟨?_, ?_, ?_⟩
  · intro heq
    simp [Auto, h, heq]
  · intro heq ha
    simp [Auto, h, heq, ha]
  · intro heq ha
    simp [Auto, h, heq, ha]

/-- Witness for C6: an end-to-end mismatch under a rule with `autoApply` on
rewrites the local config to the expected identity. -/
theorem auto_decision_witness :
    Auto true ("/h".toList) ("/h/work/repo".toList)
        [⟨"Jane".toList, "b@y.com".toList, "s".toList, .unknown⟩]
        [⟨"~/work".toList, "b@y.com".toList⟩] true
        ⟨"Old".toList, "a@x.com".toList⟩
      = (.autoApplied, ⟨"Jane".toList, "b@y.com".toList⟩) :=
  (auto_decision ("/h".toList) ("/h/work/repo".toList)
      [⟨"Jane".toList, "b@y.com".toList, "s".toList, .unknown⟩]
      [⟨"~/work".toList, "b@y.com".toList⟩] true
      ⟨"Old".toList, "a@x.com".toList⟩
      ⟨"Jane".toList, "b@y.com".toList, "s".toList, .unknown⟩
      (by rfl)).2.1 (by decide) rfl

lemma ScanInv_nil (seen : List Str) : ScanInv seen ([], seen) := by
  unfold ScanInv
  refine ⟨by simp, by simp, by simp⟩

lemma ScanInv_comp {seen : List Str} {r₁ r₂ : List Identity × List Str}
    (h₁ : ScanInv seen r₁) (h₂ : ScanInv r₁.2 r₂) :
    ScanInv seen (r₁.1 ++ r₂.1, r₂.2) := by
  obtain ⟨n₁, f₁, i₁⟩ := h₁
  obtain ⟨n₂, f₂, i₂⟩ := h₂
  refine ⟨?_, ?_, ?_⟩
  · rw [List.map_append]
    refine List.Nodup.append n₁ n₂ ?_
    intro e he₁ he₂
    exact f₂ e he₂ ((i₁ e).mpr (Or.inr he₁))
  · intro e he
    rw [List.map_append, List.mem_append] at he
    rcases he with h | h
    · exact f₁ e h
    · exact fun hc => f₂ e h ((i₁ e).mpr (Or.inl hc))
  · intro e
    rw [List.map_append, List.mem_append]
    constructor
    · intro he
      rcases (i₂ e).mp he with h | h
      · rcases (i₁ e).mp h with h' | h'
        · exact Or.inl h'
        · exact Or.inr (Or.inl h')
      · exact Or.inr (Or.inr h)
    · intro he
      rcases he with h | h | h
      · exact (i₂ e).mpr (Or.inl ((i₁ e).mpr (Or.inl h)))
      · exact (i₂ e).mpr (Or.inl ((i₁ e).mpr (Or.inr h)))
      · exact (i₂ e).mpr (Or.inr h)

lemma scanEntry_inv (t : DirTree) (seen : List Str) :
    ScanInv seen (scanEntry t seen) := by
  unfold scanEntry
  rcases repoIdentityOf t with _ | id
  · exact ScanInv_nil seen
  · show ScanInv seen
      (if id.email ∈ seen then (([] : List Identity), seen)
        else ([id], id.email :: seen))
    by_cases hm : id.email ∈ seen
    · rw [if_pos hm]
      exact ScanInv_nil seen
    · rw [if_neg hm]
      refine ⟨by simp, ?_, ?_⟩
      · intro e he
        have h' : e = id.email := by simpa using he
        subst h'
        exact hm
      · intro e
        simp [List.mem_cons, or_comm]

lemma scanDirectory_inv :
    ∀ (d : Nat) (l : List DirTree) (seen : List Str),
      ScanInv seen (scanDirectory l d seen) := by
  intro d
  induction d with
  | zero =>
      intro l seen
      have h : scanDirectory l 0 seen = ([], seen) := by
        cases l <;> simp [scanDirectory]
      rw [h]
      exact ScanInv_nil seen
  | succ d ihd =>
      intro l
      induction l with
      | nil =>
          intro seen
          have h : scanDirectory [] (d + 1) seen = ([], seen) := by
            simp [scanDirectory]
          rw [h]
          exact ScanInv_nil seen
      | cons t ts ihl =>
          intro seen
          have h₁ : ScanInv seen (scanEntry t seen) := scanEntry_inv t seen
          have h₂ : ScanInv (scanEntry t seen).2
              (if 1 < d + 1 then scanDirectory t.children d (scanEntry t seen).2
                else ([], (scanEntry t seen).2)) := by
            by_cases hd1 : 1 < d + 1
            · rw [if_pos hd1]
              exact ihd t.children (scanEntry t seen).2
            · rw [if_neg hd1]
              exact ScanInv_nil _
          have h₃ := ihl (if 1 < d + 1 then
              scanDirectory t.children d (scanEntry t seen).2
            else ([], (scanEntry t seen).2)).2
          have hcomp := ScanInv_comp (ScanInv_comp h₁ h₂) h₃
          have heq : scanDirectory (t :: ts) (d + 1) seen
              = ((scanEntry t seen).1 ++
                  (if 1 < d + 1 then
                      scanDirectory t.children d (scanEntry t seen).2
                    else ([], (scanEntry t seen).2)).1 ++
                  (scanDirectory ts (d + 1)
                    (if 1 < d + 1 then
                        scanDirectory t.children d (scanEntry t seen).2
                      else ([], (scanEntry t seen).2)).2).1,
                 (scanDirectory ts (d + 1)
                    (if 1 < d + 1 then
                        scanDirectory t.children d (scanEntry t seen).2
                      else ([], (scanEntry t seen).2)).2).2) := by
            simp [scanDirectory]
          rw [heq]
          exact hcomp

lemma addIfNew_inv {seen : List Str} {s : List Identity × List Str}
    (h : ScanInv seen s) (id : Identity) : ScanInv seen (addIfNew s id) := by
  obtain ⟨n, f, i⟩ := h
  unfold addIfNew
  by_cases hm : id.email ∈ s.2
  · rw [if_pos hm]
    exact ⟨n, f, i⟩
  · rw [if_neg hm]
    refine ⟨?_, ?_, ?_⟩
    · rw [List.map_append]
      refine List.Nodup.append n (by simp) ?_
      intro e he₁ he₂
      have h' : e = id.email := by simpa using he₂
      subst h'
      exact hm ((i id.email).mpr (Or.inr he₁))
    · intro e he
      rw [List.map_append, List.mem_append] at he
      rcases he with h' | h'
      · exact f e h'
      · have h'' : e = id.email := by simpa using h'
        subst h''
        exact fun hc => hm ((i id.email).mpr (Or.inl hc))
    · intro e
      have hi := i e
      constructor
      · intro he
        rcases List.mem_cons.mp he with h' | h'
        · refine Or.inr ?_
          rw [List.map_append]
          exact List.mem_append.mpr (Or.inr (by simp [h']))
        · rcases hi.mp h' with h'' | h''
          · exact Or.inl h''
          · refine Or.inr ?_
            rw [List.map_append]
            exact List.mem_append.mpr (Or.inl h'')
      · intro he
        rcases he with h' | h'
        · exact List.mem_cons_of_mem _ (hi.mpr (Or.inl h'))
        · rw [List.map_append, List.mem_append] at h'
          rcases h' with h'' | h''
          · exact List.mem_cons_of_mem _ (hi.mpr (Or.inr h''))
          · have h₃ : e = id.email := by simpa using h''
            exact h₃ ▸ List.mem_cons_self _ _

lemma scanConfigStep_inv {seen : List Str} {s : List Identity × List Str}
    (h : ScanInv seen s) (ep : Str → Option Platform)
    (file : Option (List Str)) (source : Str) :
    ScanInv seen (scanConfigStep ep file source s) := by
  unfold scanConfigStep
  rcases parseGitConfig file source [] .unknown with _ | r
  · exact h
  · rcases r with _ | id
    · exact h
    · exact addIfNew_inv h (backfill ep id)

lemma foldl_addIfNew_inv {seen : List Str} (ep : Str → Option Platform) :
    ∀ (l : List Identity) (s : List Identity × List Str), ScanInv seen s →
      ScanInv seen (l.foldl (fun s id => addIfNew s (backfill ep id)) s) := by
  intro l
  induction l with
  | nil => intro s h; simpa using h
  | cons id rest ih =>
      intro s h
      rw [List.foldl_cons]
      exact ih _ (addIfNew_inv h (backfill ep id))

lemma foldl_walk_inv {seen : List Str} :
    ∀ (dirs : List DirTree) (s : List Identity × List Str), ScanInv seen s →
      ScanInv seen (dirs.foldl
        (fun s t =>
          let r := scanDirectory t.children 2 s.2
          (s.1 ++ r.1, r.2)) s) := by
  intro dirs
  induction dirs with
  | nil => intro s h; simpa using h
  | cons t rest ih =>
      intro s h
      rw [List.foldl_cons]
      exact ih _ (ScanInv_comp h (scanDirectory_inv 2 t.children s.2))

/-- C1: every scan returns identities with pairwise distinct emails — the
seen set threaded through the global-config, XDG-config, include and
repository-walk phases dedups by exact email, first occurrence winning. -/
theorem scan_email_dedup (ep : Str → Option Platform)
    (globalCfg xdgCfg : Option (List Str)) (globalSrc xdgSrc : Str)
    (includeIds : List Identity) (workspaceDirs : List DirTree) :
    ((Scan ep globalCfg xdgCfg globalSrc xdgSrc includeIds
        workspaceDirs).map Identity.email).Nodup := by
  have h0 : ScanInv [] (([], []) : List Identity × List Str) := ScanInv_nil []
  have h1 := scanConfigStep_inv h0 ep globalCfg globalSrc
  have h2 := scanConfigStep_inv h1 ep xdgCfg xdgSrc
  have h3 := foldl_addIfNew_inv ep includeIds _ h2
  have h4 := foldl_walk_inv workspaceDirs _ h3
  exact h4.1

lemma updateEmailPlatforms_none (m : Str → Option Platform) (email : Str)
    (p : Platform) (host : Str) (h : m email = none) :
    updateEmailPlatforms m email p host
      = fun e => if e = email then some p else m e := by
  unfold updateEmailPlatforms
  rw [h]

lemma updateEmailPlatforms_some (m : Str → Option Platform) (email : Str)
    (p : Platform) (host : Str) (q : Platform) (h : m email = some q) :
    updateEmailPlatforms m email p host
      = if host ≠ [] ∧ strContains host (getEmailDomain email) = true then
          (fun e => if e = email then some p else m e)
        else if q = Platform.github ∧ p = Platform.gitlab then
          (if ¬strContains email ("gmail".toList) = true
              ∧ ¬strContains email ("github".toList) = true then
            (fun e => if e = email then some p else m e)
          else m)
        else m := by
  unfold updateEmailPlatforms
  rw [h]

lemma scanRepoPlatforms_eq_foldl (ssh : List (Str × Platform)) :
    ∀ (d : Nat) (l : List DirTree) (m : Str → Option Platform) (g : Str),
      scanRepoPlatforms ssh l d m g
        = (repoObservations ssh l d g).foldl
            (fun m o => updateEmailPlatforms m o.1 o.2.1 o.2.2) m := by
  intro d
  induction d with
  | zero =>
      intro l m g
      cases l <;> simp [scanRepoPlatforms, repoObservations]
  | succ d ihd =>
      intro l
      induction l with
      | nil =>
          intro m g
          simp [scanRepoPlatforms, repoObservations]
      | cons t ts ihl =>
          intro m g
          simp only [scanRepoPlatforms, repoObservations, List.foldl_append, ihl, ihd]
          by_cases hg : t.hasGit = true
          · by_cases hpr : (detectPlatformFromRemotesWithHost ssh t.cfg).1 ≠ Platform.unknown
            · by_cases he : (if getRepoEmail t.cfg = [] then g else getRepoEmail t.cfg) ≠ []
              · by_cases hd1 : 1 < d + 1 <;> simp [hg, hpr, he, hd1, ihd]
              · by_cases hd1 : 1 < d + 1 <;> simp [hg, hpr, he, hd1, ihd]
            · by_cases hd1 : 1 < d + 1 <;> simp [hg, hpr, hd1, ihd]
          · by_cases hd1 : 1 < d + 1 <;> simp [hg, hd1, ihd]

/-- C3: building the email-to-platform inference map is first-write-wins per
email, except that an observation whose remote host contains the email's
domain token overrides, as does a gitlab observation over a stored github
entry when the email contains neither `gmail` nor `github`; and the walk of
`scanRepoPlatforms` is exactly the in-order fold of these insertions. -/
theorem scanRepoPlatforms_insertion_policy :
    (∀ (m : Str → Option Platform) (email : Str) (p : Platform) (host e : Str),
        e ≠ email → updateEmailPlatforms m email p host e = m e)
    ∧ (∀ (m : Str → Option Platform) (email : Str) (p : Platform) (host : Str),
        m email = none → updateEmailPlatforms m email p host email = some p)
    ∧ (∀ (m : Str → Option Platform) (email : Str) (p : Platform) (host : Str)
        (q : Platform), m email = some q →
        updateEmailPlatforms m email p host email =
          if (host ≠ [] ∧ strContains host (getEmailDomain email) = true)
              ∨ (q = .github ∧ p = .gitlab
                  ∧ strContains email ("gmail".toList) = false
                  ∧ strContains email ("github".toList) = false)
          then some p else some q)
    ∧ (∀ (ssh : List (Str × Platform)) (l : List DirTree) (d : Nat)
        (m : Str → Option Platform) (g : Str),
        scanRepoPlatforms ssh l d m g
          = (repoObservations ssh l d g).foldl
              (fun m o => updateEmailPlatforms m o.1 o.2.1 o.2.2) m) := by
  refine ⟨?_, ?_, ?_, fun ssh l d m g => scanRepoPlatforms_eq_foldl ssh d l m g⟩
  · intro m email p host e hne
    rcases hm : m email with _ | q
    · rw [updateEmailPlatforms_none m email p host hm]
      simp [hne]
    · rw [updateEmailPlatforms_some m email p host q hm]
      split
      · simp [hne]
      · split
        · split
          · simp [hne]
          · rfl
        · rfl
  · intro m email p host h0
    rw [updateEmailPlatforms_none m email p host h0]
    simp
  · intro m email p host q hq
    rw [updateEmailPlatforms_some m email p host q hq]
    by_cases c1 : host ≠ [] ∧ strContains host (getEmailDomain email) = true
    · rw [if_pos c1, if_pos (Or.inl c1)]
      simp
    · rw [if_neg c1]
      by_cases c2 : q = Platform.github ∧ p = Platform.gitlab
      · rw [if_pos c2]
        by_cases c3 : ¬strContains email ("gmail".toList) = true
            ∧ ¬strContains email ("github".toList) = true
        · rw [if_pos c3]
          have hd : (host ≠ [] ∧ strContains host (getEmailDomain email) = true)
              ∨ (q = .github ∧ p = .gitlab
                  ∧ strContains email ("gmail".toList) = false
                  ∧ strContains email ("github".toList) = false) :=
            Or.inr ⟨c2.1, c2.2, Bool.not_eq_true _ ▸ c3.1, Bool.not_eq_true _ ▸ c3.2⟩
          rw [if_pos hd]
          simp
        · rw [if_neg c3]
          have hd : ¬((host ≠ [] ∧ strContains host (getEmailDomain email) = true)
              ∨ (q = .github ∧ p = .gitlab
                  ∧ strContains email ("gmail".toList) = false
                  ∧ strContains email ("github".toList) = false)) := by
            rintro (h | ⟨_, _, hg1, hg2⟩)
            · exact c1 h
            · refine c3 ⟨fun hx => ?_, fun hx => ?_⟩
              · rw [hg1] at hx
                exact Bool.noConfusion hx
              · rw [hg2] at hx
                exact Bool.noConfusion hx
          rw [if_neg hd]
          exact hq
      · rw [if_neg c2]
        have hd : ¬((host ≠ [] ∧ strContains host (getEmailDomain email) = true)
            ∨ (q = .github ∧ p = .gitlab
                ∧ strContains email ("gmail".toList) = false
                ∧ strContains email ("github".toList) = false)) := by
          rintro (h | ⟨hq1, hp1, _, _⟩)
          · exact c1 h
          · exact c2 ⟨hq1, hp1⟩
        rw [if_neg hd]
        exact hq

/-- Witness for C3: a gitlab observation from a domain-matching remote host
overrides a stored github entry for the email. -/
theorem scanRepoPlatforms_insertion_policy_witness :
    updateEmailPlatforms
        (fun e => if e = ("u@scl.com".toList) then some Platform.github else none)
        ("u@scl.com".toList) Platform.gitlab ("git.scl.com".toList)
        ("u@scl.com".toList)
      = some Platform.gitlab := by
  have h := scanRepoPlatforms_insertion_policy.2.2.1
    (fun e => if e = ("u@scl.com".toList) then some Platform.github else none)
    ("u@scl.com".toList) Platform.gitlab ("git.scl.com".toList)
    Platform.github (by decide)
  rw [h]
  decide

end Gitme

